import Mathlib

set_option maxRecDepth 8000

/-!
Shallow embedding of the cinefil poster generator (`image_utils.py`,
`main.py`) and verification of its specification claims.

Pixel coordinates and bounding boxes are embedded as integers (the Python
code manipulates PIL integer pixel data; the few float divisions in the
source, `// 1.2`, `// 1.3`, are embedded as exact rational arithmetic with
explicit floors).  Images are a dimension together with a pixel function.
-/

namespace Cinefil

/-- A bounding box `(left, top, right, bottom)`, as returned by
`draw.textbbox((0, 0), text, font)` in the source. -/
structure BBox where
  left : ℤ
  top : ℤ
  right : ℤ
  bottom : ℤ
deriving DecidableEq, Repr

/-- Embeds `center_position` (image_utils.py, lines 4-16):
`obj_width = obj_bbox[2] - obj_bbox[0]; return (final_poster_width - obj_width) // 2`.
Python `//` is floor division, hence `Int.fdiv`. -/
def center_position (final_poster_width : ℤ) (obj_bbox : BBox) : ℤ :=
  Int.fdiv (final_poster_width - (obj_bbox.right - obj_bbox.left)) 2

/-- Embeds `add_bboxes` (image_utils.py, lines 19-37): componentwise
min of lefts/tops, max of rights/bottoms. -/
def add_bboxes (bbox1 bbox2 : BBox) : BBox :=
  { left := min bbox1.left bbox2.left
    top := min bbox1.top bbox2.top
    right := max bbox1.right bbox2.right
    bottom := max bbox1.bottom bbox2.bottom }

/-- Embeds the size-search loop of `get_adaptive_font` (image_utils.py,
lines 40-67).  `width s` is the measured text width
`draw.textbbox((0, 0), text, font=truetype(font_path, s))[2]`; the loop is
`while width(font_size) > max_width and font_size > 10: font_size -= 1`.
The returned font object is determined by its size, so the embedding
returns the size. -/
def get_adaptive_font_size (width : ℕ → ℤ) (max_width : ℤ) (font_size : ℕ) : ℕ :=
  if max_width < width font_size ∧ 10 < font_size then
    get_adaptive_font_size width max_width (font_size - 1)
  else
    font_size
termination_by font_size
decreasing_by omega

/-- Python integer floor division `a // b`, for positive `b`, agrees with
Lean integer division (Euclidean division). -/
lemma fdiv_eq_div_of_pos (a b : ℤ) (hb : 0 < b) : Int.fdiv a b = a / b :=
  Int.fdiv_eq_ediv a hb.le

/-! ### Binary64 float model

Python floats are IEEE binary64 values.  `smart_resize` divides and
multiplies Python floats (image_utils.py lines 85-93), and the text layout
floor-divides by the float literal `1.3` (line 191), so those operations
are embedded with exact round-to-nearest-ties-to-even binary64 semantics.
A float is represented by a mantissa-scale pair `(m, s) : ℕ × ℤ` of exact
value `m * 2 ^ s`; all values arising in this program are positive, normal
and far from overflow, for which this model is exact. -/

/-- Fuel-bounded binary logarithm: `log2floor fuel n = ⌊log2 n⌋` whenever
`n ≤ fuel` and `1 ≤ n`. -/
def log2floor : ℕ → ℕ → ℕ
  | 0, _ => 0
  | fuel + 1, n => if n < 2 then 0 else log2floor fuel (n / 2) + 1

/-- `⌊log2 n⌋` for `1 ≤ n`. -/
def nlog2 (n : ℕ) : ℕ := log2floor n n

/-- Round-to-nearest, ties-to-even integer rounding of the quotient `a / d`. -/
def rdiv (a d : ℕ) : ℕ :=
  let q := a / d
  let r := a % d
  if 2 * r < d then q
  else if d < 2 * r then q + 1
  else if q % 2 = 0 then q else q + 1

/-- The binary exponent `⌊log2 (a / b)⌋` of a positive rational `a / b`. -/
def ratExp (a b : ℕ) : ℤ :=
  if a * 2 ^ nlog2 b < b * 2 ^ nlog2 a then (nlog2 a : ℤ) - nlog2 b - 1
  else (nlog2 a : ℤ) - nlog2 b

/-- The binary64 value of the Python float division `a / b` of two
nonnegative integers (`b` positive), as a mantissa-scale pair: the exact
quotient is rounded to 53 significant bits, nearest, ties to even. -/
def flDiv (a b : ℕ) : ℕ × ℤ :=
  let s : ℤ := ratExp a b - 52
  if 0 ≤ s then (rdiv a (b * 2 ^ s.toNat), s)
  else (rdiv (a * 2 ^ (-s).toNat) b, s)

/-- The binary64 rounding of the exact dyadic value `m * 2 ^ t` (for
example a Python `int * float` product). -/
def flDyadic (m : ℕ) (t : ℤ) : ℕ × ℤ :=
  let l := nlog2 m
  if l ≤ 52 then (m * 2 ^ (52 - l), t - (52 - (l : ℤ)))
  else (rdiv m (2 ^ (l - 52)), t + ((l : ℤ) - 52))

/-- Python `max` on two float values, compared exactly through integers. -/
def maxF (p q : ℕ × ℤ) : ℕ × ℤ :=
  if p.2 ≤ q.2 then (if p.1 ≤ q.1 * 2 ^ (q.2 - p.2).toNat then q else p)
  else (if p.1 * 2 ^ (p.2 - q.2).toNat ≤ q.1 then q else p)

/-- Python `int(x)` truncation of a nonnegative float value (the floor). -/
def dfloor (p : ℕ × ℤ) : ℕ :=
  if 0 ≤ p.2 then p.1 * 2 ^ p.2.toNat else p.1 / 2 ^ (-p.2).toNat

/-- The exact rational value of a mantissa-scale pair. -/
def dval (p : ℕ × ℤ) : ℚ := (p.1 : ℚ) * 2 ^ p.2

/-! ### Image model

A PIL image is embedded as a dimension plus a total pixel function; only
pixels with `x < dim.w`, `y < dim.h` are observable.  RGBA channel values
are rationals (alpha normalized to `[0,1]`). -/

/-- An image size `(width, height)` in pixels. -/
structure Dim where
  w : ℕ
  h : ℕ
deriving DecidableEq, Repr

/-- One RGBA pixel; channels as rationals, alpha normalized to `[0,1]`. -/
structure RGBA where
  r : ℚ
  g : ℚ
  b : ℚ
  a : ℚ
deriving DecidableEq, Repr

/-- The fully transparent pixel `(0, 0, 0, 0)` used for blank canvases. -/
def clearPixel : RGBA := ⟨0, 0, 0, 0⟩

/-- An image: a dimension and a pixel function. -/
structure Img where
  dim : Dim
  px : ℕ → ℕ → RGBA

/-- The blank canvas `Image.new("RGBA", d, (0, 0, 0, 0))`. -/
def blankCanvas (d : Dim) : Img := ⟨d, fun _ _ => clearPixel⟩

/-- Abstract resampling kernel (PIL LANCZOS): given source dimension,
target dimension and source pixels it produces the resampled pixels.  Its
numerics are external to this repository; PIL guarantees the output image
has exactly the requested size, which `resizeImg` encodes. -/
def Resample : Type := Dim → Dim → (ℕ → ℕ → RGBA) → ℕ → ℕ → RGBA

/-- `image.resize(d, LANCZOS)`: an image of exactly dimension `d` with
resampled pixels. -/
def resizeImg (resample : Resample) (img : Img) (d : Dim) : Img :=
  ⟨d, resample img.dim d img.px⟩

/-- `canvas.paste(src, pos)` without a mask: opaque paste of `src` with its
top-left corner at `pos` (possibly negative), clipped by the canvas bounds;
the canvas keeps its own pixels outside the pasted region. -/
def pasteAt (canvas : Img) (src : Img) (pos : ℤ × ℤ) : Img :=
  ⟨canvas.dim, fun x y =>
    if pos.1 ≤ (x : ℤ) ∧ (x : ℤ) < pos.1 + src.dim.w ∧
       pos.2 ≤ (y : ℤ) ∧ (y : ℤ) < pos.2 + src.dim.h then
      src.px ((x : ℤ) - pos.1).toNat ((y : ℤ) - pos.2).toNat
    else canvas.px x y⟩

/-- The standard "over" alpha blend of foreground `fg` onto background
`bg` with straight (non-premultiplied) alpha, as in `Image.alpha_composite`. -/
def overPixel (bg fg : RGBA) : RGBA :=
  let outA : ℚ := fg.a + bg.a * (1 - fg.a)
  if outA = 0 then clearPixel
  else
    ⟨(fg.r * fg.a + bg.r * bg.a * (1 - fg.a)) / outA,
     (fg.g * fg.a + bg.g * bg.a * (1 - fg.a)) / outA,
     (fg.b * fg.a + bg.b * bg.a * (1 - fg.a)) / outA,
     outA⟩

/-- `Image.alpha_composite(im1, im2)`: pixelwise "over" blend of `im2`
onto `im1`. -/
def alpha_composite (im1 im2 : Img) : Img :=
  ⟨im1.dim, fun x y => overPixel (im1.px x y) (im2.px x y)⟩

/-! ### `smart_resize` (image_utils.py, lines 70-108) -/

/-- `scale = max(target_size[0] / image.width, target_size[1] / image.height)`:
two binary64 divisions of Python ints followed by `max`, giving a float. -/
def scaleForF (src target : Dim) : ℕ × ℤ :=
  maxF (flDiv target.w src.w) (flDiv target.h src.h)

/-- The exact rational value of the computed float scale factor. -/
def scaleFor (src target : Dim) : ℚ := dval (scaleForF src target)

/-- `new_width = int(image.width * scale)`, `new_height = int(image.height * scale)`:
each is a binary64 product of an int and the float scale, truncated by
`int()` (the operands are nonnegative, so truncation is the floor). -/
def resized_dims (src target : Dim) : Dim :=
  ⟨dfloor (flDyadic (src.w * (scaleForF src target).1) (scaleForF src target).2),
   dfloor (flDyadic (src.h * (scaleForF src target).1) (scaleForF src target).2)⟩

/-- `x_offset = (target_size[0] - new_width) // 2` and its `y` analogue. -/
def paste_offset (target new : Dim) : ℤ × ℤ :=
  (Int.fdiv ((target.w : ℤ) - new.w) 2, Int.fdiv ((target.h : ℤ) - new.h) 2)

/-- Embeds `smart_resize`: scale to cover, resize preserving aspect ratio,
paste centered on a transparent canvas of exactly `target_size`. -/
def smart_resize (resample : Resample) (image : Img) (target_size : Dim) : Img :=
  let new_dims := resized_dims image.dim target_size
  let resized_image := resizeImg resample image new_dims
  pasteAt (blankCanvas target_size) resized_image (paste_offset target_size new_dims)

/-! ### `create_image_poster` (image_utils.py, lines 111-202) -/

/-- `offset_y = int(poster_height // 1.2 - blur_height)`: the Python float
literal `1.2` denotes the rational value used in the exact embedding; the
float floor division `// 1.2` is the rational floor, and the outer `int()`
is the identity on the already integral value. -/
def blur_offset_y (poster_height blur_height : ℤ) : ℤ :=
  Int.floor ((poster_height : ℚ) / (6/5)) - blur_height

/-- Lines 140-143: `blur_with_offset = Image.new("RGBA", poster.size, (0,0,0,0))`
then `blur_with_offset.paste(blur, (0, -offset_y))`. -/
def blur_with_offset_canvas (posterDim : Dim) (blur : Img) : Img :=
  pasteAt (blankCanvas posterDim) blur (0, -(blur_offset_y posterDim.h blur.dim.h))

/-- Line 146: `final_poster = Image.alpha_composite(poster, blur_with_offset)`. -/
def composite_stage (poster blur : Img) : Img :=
  alpha_composite poster (blur_with_offset_canvas poster.dim blur)

/-- Line 174: `(center_position(w, title_bbox), h - h // 4)`. -/
def title_position (w h : ℤ) (title_bbox : BBox) : ℤ × ℤ :=
  (center_position w title_bbox, h - Int.fdiv h 4)

/-- Lines 183-184: centering start of the unioned cine+fil bbox. -/
def cinefil_start_position (w : ℤ) (cine_bbox fil_bbox : BBox) : ℤ :=
  center_position w (add_bboxes cine_bbox fil_bbox)

/-- Lines 186-187: `(cinefil_start_position, h - 450 + cine_height // 4)`. -/
def cine_position (w h : ℤ) (cine_bbox fil_bbox : BBox) : ℤ × ℤ :=
  (cinefil_start_position w cine_bbox fil_bbox,
   h - 450 + Int.fdiv (cine_bbox.bottom - cine_bbox.top) 4)

/-- Lines 188-189: `(cinefil_start_position + cine_bbox[2], h - 450)`. -/
def fil_position (w h : ℤ) (cine_bbox fil_bbox : BBox) : ℤ × ℤ :=
  (cinefil_start_position w cine_bbox fil_bbox + cine_bbox.right, h - 450)

/-- Line 191: `(cine_position[0] + room_bbox[2] + cinefil_width // 1.3,
cine_position[1] + cinefil_height // 4)`; `// 1.3` is a float floor
division: the exact floor of the quotient by the binary64 value of the
literal `1.3` (Python computes float floor division exactly on the two
double operands; the int operand is below `2^53`, so its conversion is
exact). -/
def room_position (w h : ℤ) (cine_bbox fil_bbox room_bbox : BBox) : ℤ × ℤ :=
  let cinefil_width := (cine_bbox.right - cine_bbox.left) + (fil_bbox.right - fil_bbox.left)
  let cinefil_height := (cine_bbox.bottom - cine_bbox.top) + (fil_bbox.bottom - fil_bbox.top)
  let cine := cine_position w h cine_bbox fil_bbox
  (cine.1 + room_bbox.right + Int.floor ((cinefil_width : ℚ) / dval (flDiv 13 10)),
   cine.2 + Int.fdiv cinefil_height 4)

/-- Line 192: `(cine_position[0] - day_bbox[2] - cinefil_width // 3,
cine_position[1] + cinefil_height // 4)`. -/
def day_position (w h : ℤ) (cine_bbox fil_bbox day_bbox : BBox) : ℤ × ℤ :=
  let cinefil_width := (cine_bbox.right - cine_bbox.left) + (fil_bbox.right - fil_bbox.left)
  let cinefil_height := (cine_bbox.bottom - cine_bbox.top) + (fil_bbox.bottom - fil_bbox.top)
  let cine := cine_position w h cine_bbox fil_bbox
  (cine.1 - day_bbox.right - Int.fdiv cinefil_width 3,
   cine.2 + Int.fdiv cinefil_height 4)

/-- Hard-coded font asset path (regular family). -/
def gloockPath : String := "Gloock/Gloock-Regular.ttf"

/-- Hard-coded font asset path (bold script family). -/
def charmonmanPath : String := "Charmonman/Charmonman-Bold.ttf"

/-- The deterministic rendering backend (PIL + FreeType), external to this
repository: resampling numerics, text measurement
(`draw.textbbox((0, 0), text, font)` as a function of font path, size and
text), glyph rasterization (`draw.text` in fill color white), and PNG
serialization. -/
structure Backend where
  resample : Resample
  textbbox : String → ℕ → String → BBox
  rasterize : String → ℕ → String → ℤ × ℤ → (ℕ → ℕ → RGBA) → ℕ → ℕ → RGBA
  encodePNG : Img → List ℕ

/-- The fixed output canvas size `(2400, 2940)` of line 130. -/
def target_size : Dim := ⟨2400, 2940⟩

/-- The pure composition pipeline of `create_image_poster` (lines 129-199),
after the input images have been decoded: smart-resize the poster, stretch
the blur to the fixed size, alpha-composite the offset blur over the base,
then lay out and draw the five text runs. -/
def compose_poster (B : Backend) (title_text : String) (posterSrc blurSrc : Img) : Img :=
  let poster := smart_resize B.resample posterSrc target_size
  let blur := resizeImg B.resample blurSrc ⟨2400, 2940⟩
  let final_poster := composite_stage poster blur
  let max_title_width : ℤ := (poster.dim.w : ℤ) - 200
  let title_size :=
    get_adaptive_font_size (fun s => (B.textbbox gloockPath s title_text).right)
      max_title_width 244
  let title_bbox := B.textbbox gloockPath title_size title_text
  let cine_bbox := B.textbbox gloockPath 126 "ciné"
  let fil_bbox := B.textbbox charmonmanPath 126 "fil"
  let room_bbox := B.textbbox gloockPath 44 "salle J160"
  let day_bbox := B.textbbox gloockPath 44 "mardi 20h30"
  let w : ℤ := (final_poster.dim.w : ℤ)
  let h : ℤ := (final_poster.dim.h : ℤ)
  let p1 := B.rasterize gloockPath title_size title_text
    (title_position w h title_bbox) final_poster.px
  let p2 := B.rasterize gloockPath 126 "ciné"
    (cine_position w h cine_bbox fil_bbox) p1
  let p3 := B.rasterize charmonmanPath 126 "fil"
    (fil_position w h cine_bbox fil_bbox) p2
  let p4 := B.rasterize gloockPath 44 "salle J160"
    (room_position w h cine_bbox fil_bbox room_bbox) p3
  let p5 := B.rasterize gloockPath 44 "mardi 20h30"
    (day_position w h cine_bbox fil_bbox day_bbox) p4
  ⟨final_poster.dim, p5⟩

/-- Observable side effects of one `create_image_poster` call. -/
inductive Effect where
  | openImage (path : String)
  | loadFont (path : String)
  | writeFile (path : String) (bytes : List ℕ)
deriving DecidableEq, Repr

/-- The world a `create_image_poster` call runs in: which image files are
readable (and their decoded contents), which font files load, the rendering
backend, plus a clock and a random seed that the pipeline provably never
reads. -/
structure Env where
  files : String → Option Img
  fontOK : String → Bool
  backend : Backend
  clock : ℕ
  randomSeed : ℕ

/-- Embeds `create_image_poster` (lines 111-202) with its effects, in
source order: open the poster image (line 131 via `smart_resize`), open the
blur image (line 132), load the two font families (lines 155-158; a failing
`truetype` raises at first use), and only then compose and save (line 202).
Any failure raises, producing an error result and no further effects. -/
def create_image_poster (env : Env) (title_text poster_image_path output_image_path blur_image_path : String) :
    List Effect × Except String Img :=
  match env.files poster_image_path with
  | none => ([.openImage poster_image_path], .error "cannot identify image file")
  | some posterSrc =>
    match env.files blur_image_path with
    | none =>
        ([.openImage poster_image_path, .openImage blur_image_path],
         .error "cannot identify image file")
    | some blurSrc =>
      match env.fontOK gloockPath with
      | false =>
        ([.openImage poster_image_path, .openImage blur_image_path, .loadFont gloockPath],
         .error "cannot open resource")
      | true =>
        match env.fontOK charmonmanPath with
        | false =>
          ([.openImage poster_image_path, .openImage blur_image_path, .loadFont gloockPath,
            .loadFont charmonmanPath],
           .error "cannot open resource")
        | true =>
          let final := compose_poster env.backend title_text posterSrc blurSrc
          ([.openImage poster_image_path, .openImage blur_image_path, .loadFont gloockPath,
            .loadFont charmonmanPath,
            .writeFile output_image_path (env.backend.encodePNG final)],
           .ok final)

/-! ### `main.py` orchestration (for the backdrop-pass claim) -/

/-- An entry of the TMDB image lists; only `file_path` is consumed. -/
structure TmdbImage where
  file_path : String
deriving DecidableEq, Repr

/-- The result of `fetch_movie_images`: the `posters` and `backdrops`
lists (via `.get(key, [])`). -/
structure MovieImages where
  posters : List TmdbImage
  backdrops : List TmdbImage
deriving DecidableEq, Repr

/-- One invocation of `create_movie_poster(movie_title, images, label, ...)`
(main.py, lines 21-61): it downloads each entry of `images` and renders one
labeled output per entry. -/
structure RenderPass where
  label : String
  images : List TmdbImage
deriving DecidableEq, Repr

/-- Embeds `generate_movie_posters` (main.py, lines 64-106) as the list of
render passes it performs.  `none` models a falsy `fetch_movie_images`
result (early return).  Note line 106 of the source passes `images=posters`
to the backdrop-labeled pass. -/
def generate_movie_posters (movie_images : Option MovieImages) : List RenderPass :=
  match movie_images with
  | none => []
  | some mi =>
    (if mi.posters = [] then [] else [⟨"poster", mi.posters⟩]) ++
    (if mi.backdrops = [] then [] else [⟨"backdrop", mi.posters⟩])

/-- All TMDB file paths downloaded by a list of render passes
(`download_image(image['file_path'], ...)` for each entry). -/
def downloaded_paths (passes : List RenderPass) : List String :=
  (passes.map (fun p => p.images.map TmdbImage.file_path)).flatten

/-! ## Claim theorems -/

/-- Unfolding lemma: `resize` returns an image of the requested size. -/
lemma resizeImg_dim (resample : Resample) (img : Img) (d : Dim) :
    (resizeImg resample img d).dim = d := rfl

/-- Unfolding lemma: one pixel of a paste. -/
lemma pasteAt_px (canvas src : Img) (pos : ℤ × ℤ) (x y : ℕ) :
    (pasteAt canvas src pos).px x y =
      if pos.1 ≤ (x : ℤ) ∧ (x : ℤ) < pos.1 + src.dim.w ∧
         pos.2 ≤ (y : ℤ) ∧ (y : ℤ) < pos.2 + src.dim.h then
        src.px ((x : ℤ) - pos.1).toNat ((y : ℤ) - pos.2).toNat
      else canvas.px x y := rfl

/-- Unfolding lemma: `smart_resize` as a centered paste of the resized
image on a blank canvas of the target size. -/
lemma smart_resize_def (resample : Resample) (image : Img) (ts : Dim) :
    smart_resize resample image ts =
      pasteAt (blankCanvas ts) (resizeImg resample image (resized_dims image.dim ts))
        (paste_offset ts (resized_dims image.dim ts)) := rfl

/-- `log2floor` is the binary logarithm for inputs within its fuel. -/
lemma log2floor_spec (fuel : ℕ) : ∀ n, 1 ≤ n → n ≤ fuel →
    2 ^ log2floor fuel n ≤ n ∧ n < 2 ^ (log2floor fuel n + 1) := by
  induction fuel with
  | zero => intro n h1 h2; omega
  | succ fuel ih =>
    intro n h1 h2
    rw [log2floor]
    by_cases hn : n < 2
    · rw [if_pos hn]
      simp
      omega
    · rw [if_neg hn]
      have hrec := ih (n / 2) (by omega) (by omega)
      have e1 : 2 ^ (log2floor fuel (n / 2) + 1) = 2 * 2 ^ log2floor fuel (n / 2) := by
        ring
      have e2 : 2 ^ (log2floor fuel (n / 2) + 1 + 1) = 2 * 2 ^ (log2floor fuel (n / 2) + 1) := by
        ring
      omega

/-- `nlog2 n` is the binary logarithm of any positive `n`. -/
lemma nlog2_spec (n : ℕ) (h : 1 ≤ n) : 2 ^ nlog2 n ≤ n ∧ n < 2 ^ (nlog2 n + 1) :=
  log2floor_spec n n h le_rfl

/-- The rounded quotient is within half a unit of the exact quotient. -/
lemma rdiv_bounds (a d : ℕ) (hd : 1 ≤ d) :
    (a : ℚ) / d - 1/2 ≤ (rdiv a d : ℚ) ∧ (rdiv a d : ℚ) ≤ (a : ℚ) / d + 1/2 := by
  have hd0 : (0 : ℚ) < (d : ℚ) := by exact_mod_cast hd
  have ha : (a : ℚ) = (d : ℚ) * ((a / d : ℕ) : ℚ) + ((a % d : ℕ) : ℚ) := by
    exact_mod_cast (Nat.div_add_mod a d).symm
  have hq : (a : ℚ) / d = ((a / d : ℕ) : ℚ) + ((a % d : ℕ) : ℚ) / d := by
    rw [ha]
    field_simp
    ring
  have hr0 : (0 : ℚ) ≤ ((a % d : ℕ) : ℚ) := by positivity
  simp only [rdiv]
  split_ifs with h1 h2 h3
  · have hlt : ((a % d : ℕ) : ℚ) / d < 1/2 := by
      rw [div_lt_div_iff₀ hd0 (by norm_num : (0:ℚ) < 2)]
      have hc : ((2 * (a % d) : ℕ) : ℚ) < (d : ℚ) := by exact_mod_cast h1
      push_cast at hc ⊢
      linarith
    constructor
    · rw [hq]; linarith [div_nonneg hr0 hd0.le]
    · rw [hq]; linarith [div_nonneg hr0 hd0.le]
  · have hge : 1/2 < ((a % d : ℕ) : ℚ) / d := by
      rw [div_lt_div_iff₀ (by norm_num : (0:ℚ) < 2) hd0]
      have hc : (d : ℚ) < ((2 * (a % d) : ℕ) : ℚ) := by exact_mod_cast h2
      push_cast at hc ⊢
      linarith
    have hub : ((a % d : ℕ) : ℚ) / d < 1 := by
      rw [div_lt_one hd0]
      exact_mod_cast Nat.mod_lt a (by omega)
    constructor
    · rw [hq]; push_cast; linarith
    · rw [hq]; push_cast; linarith
  · have heq : ((a % d : ℕ) : ℚ) / d = 1/2 := by
      rw [div_eq_div_iff hd0.ne' (by norm_num : (2:ℚ) ≠ 0)]
      have h2d : (2 * (a % d) : ℕ) = d := by omega
      have h2q : ((2 * (a % d) : ℕ) : ℚ) = (d : ℚ) := by exact_mod_cast h2d
      push_cast at h2q ⊢
      linarith
    constructor
    · rw [hq]; linarith
    · rw [hq]; linarith
  · have heq : ((a % d : ℕ) : ℚ) / d = 1/2 := by
      rw [div_eq_div_iff hd0.ne' (by norm_num : (2:ℚ) ≠ 0)]
      have h2d : (2 * (a % d) : ℕ) = d := by omega
      have h2q : ((2 * (a % d) : ℕ) : ℚ) = (d : ℚ) := by exact_mod_cast h2d
      push_cast at h2q ⊢
      linarith
    constructor
    · rw [hq]; push_cast; linarith
    · rw [hq]; push_cast; linarith

/-- `ratExp a b` is the binary exponent of `a / b`. -/
lemma ratExp_spec (a b : ℕ) (ha : 1 ≤ a) (hb : 1 ≤ b) :
    (2 : ℚ) ^ ratExp a b ≤ (a : ℚ) / b ∧ (a : ℚ) / b < 2 ^ (ratExp a b + 1) := by
  obtain ⟨ha1, ha2⟩ := nlog2_spec a ha
  obtain ⟨hb1, hb2⟩ := nlog2_spec b hb
  have hb0 : (0 : ℚ) < (b : ℚ) := by exact_mod_cast hb
  have ha0 : (0 : ℚ) < (a : ℚ) := by exact_mod_cast ha
  have qa1 : (2 : ℚ) ^ (nlog2 a) ≤ (a : ℚ) := by exact_mod_cast ha1
  have qa2 : (a : ℚ) < 2 ^ (nlog2 a + 1) := by exact_mod_cast ha2
  have qb1 : (2 : ℚ) ^ (nlog2 b) ≤ (b : ℚ) := by exact_mod_cast hb1
  have qb2 : (b : ℚ) < 2 ^ (nlog2 b + 1) := by exact_mod_cast hb2
  have hpa : (0 : ℚ) < 2 ^ (nlog2 a) := by positivity
  have hpb : (0 : ℚ) < 2 ^ (nlog2 b) := by positivity
  rw [ratExp]
  split_ifs with h
  · have hq : (a : ℚ) * 2 ^ nlog2 b < (b : ℚ) * 2 ^ nlog2 a := by exact_mod_cast h
    have key : (2 : ℚ) ^ ((nlog2 a : ℤ) - nlog2 b - 1) = 2 ^ nlog2 a / (2 ^ nlog2 b * 2) := by
      rw [zpow_sub₀ (two_ne_zero), zpow_sub₀ (two_ne_zero), zpow_natCast, zpow_natCast,
        zpow_one, div_div]
    have key2 : (2 : ℚ) ^ ((nlog2 a : ℤ) - nlog2 b - 1 + 1) = 2 ^ nlog2 a / 2 ^ nlog2 b := by
      rw [sub_add_cancel, zpow_sub₀ (two_ne_zero), zpow_natCast, zpow_natCast]
    constructor
    · rw [key, div_le_div_iff₀ (by positivity) hb0]
      have step1 : (2 : ℚ) ^ nlog2 a * b < 2 ^ nlog2 a * 2 ^ (nlog2 b + 1) :=
        mul_lt_mul_of_pos_left qb2 hpa
      have step2 : (2 : ℚ) ^ nlog2 a * 2 ^ (nlog2 b + 1) = 2 ^ nlog2 a * 2 ^ nlog2 b * 2 := by
        ring
      have step3 : (2 : ℚ) ^ nlog2 a * 2 ^ nlog2 b * 2 ≤ a * (2 ^ nlog2 b * 2) := by
        have hstep := mul_le_mul_of_nonneg_right qa1
          (le_of_lt (by positivity : (0:ℚ) < 2 ^ nlog2 b * 2))
        linarith [hstep]
      linarith
    · rw [key2, div_lt_div_iff₀ hb0 (by positivity)]
      linarith [hq]
  · have hq : (b : ℚ) * 2 ^ nlog2 a ≤ (a : ℚ) * 2 ^ nlog2 b := by
      have hnot := not_lt.mp h
      exact_mod_cast hnot
    have key : (2 : ℚ) ^ ((nlog2 a : ℤ) - nlog2 b) = 2 ^ nlog2 a / 2 ^ nlog2 b := by
      rw [zpow_sub₀ (two_ne_zero), zpow_natCast, zpow_natCast]
    have key2 : (2 : ℚ) ^ ((nlog2 a : ℤ) - nlog2 b + 1) = 2 ^ (nlog2 a + 1) / 2 ^ nlog2 b := by
      rw [show ((nlog2 a : ℤ) - nlog2 b + 1) = ((nlog2 a : ℤ) + 1) - nlog2 b by ring,
        zpow_sub₀ (two_ne_zero), zpow_natCast]
      norm_num [zpow_add₀, zpow_natCast]
      ring
    constructor
    · rw [key, div_le_div_iff₀ (by positivity) hb0]
      linarith
    · rw [key2, div_lt_div_iff₀ hb0 (by positivity)]
      have step : (a : ℚ) * 2 ^ nlog2 b < 2 ^ (nlog2 a + 1) * 2 ^ nlog2 b := by
        have hstep := mul_lt_mul_of_pos_right qa2 hpb
        linarith [hstep]
      have step2 : (2 : ℚ) ^ (nlog2 a + 1) * 2 ^ nlog2 b ≤ 2 ^ (nlog2 a + 1) * b := by
        have hstep := mul_le_mul_of_nonneg_left qb1
          (le_of_lt (by positivity : (0:ℚ) < 2 ^ (nlog2 a + 1)))
        linarith [hstep]
      linarith

/-- Float values in this model are nonnegative. -/
lemma dval_nonneg (p : ℕ × ℤ) : 0 ≤ dval p := by
  unfold dval
  positivity

/-- The rounding error of a quotient, scaled by a power of two. -/
lemma rdiv_scaled (x y : ℕ) (s : ℤ) (hy : 1 ≤ y) :
    ((x : ℚ) / y) * 2 ^ s - 2 ^ s / 2 ≤ (rdiv x y : ℚ) * 2 ^ s ∧
    (rdiv x y : ℚ) * 2 ^ s ≤ ((x : ℚ) / y) * 2 ^ s + 2 ^ s / 2 := by
  obtain ⟨h1, h2⟩ := rdiv_bounds x y hy
  have hp : (0 : ℚ) < 2 ^ s := by positivity
  constructor
  · nlinarith [mul_le_mul_of_nonneg_right h1 hp.le]
  · nlinarith [mul_le_mul_of_nonneg_right h2 hp.le]

/-- Relative error of the binary64 division: one half-ulp, hence a factor
within `1 ± 2^-53`. -/
lemma flDiv_bounds (a b : ℕ) (ha : 1 ≤ a) (hb : 1 ≤ b) :
    ((a : ℚ) / b) * (1 - 1/2^53) ≤ dval (flDiv a b) ∧
    dval (flDiv a b) ≤ ((a : ℚ) / b) * (1 + 1/2^53) := by
  obtain ⟨he1, he2⟩ := ratExp_spec a b ha hb
  have hb0 : (0 : ℚ) < (b : ℚ) := by exact_mod_cast hb
  have hq0 : (0 : ℚ) < (a : ℚ) / b := by positivity
  have herr : (2 : ℚ) ^ (ratExp a b - 52) / 2 ≤ ((a : ℚ) / b) * (1/2^53) := by
    have e1 : (2 : ℚ) ^ (ratExp a b - 52) / 2 = 2 ^ ratExp a b * (1/2^53) := by
      rw [zpow_sub₀ (two_ne_zero)]
      rw [show ((52 : ℤ)) = ((52 : ℕ) : ℤ) by norm_num, zpow_natCast]
      ring
    rw [e1]
    have hp : (0 : ℚ) < 1/2^53 := by norm_num
    nlinarith [he1]
  rw [flDiv]
  split_ifs with hs
  · set s : ℤ := ratExp a b - 52 with hsdef
    have hy : 1 ≤ b * 2 ^ s.toNat := Nat.one_le_iff_ne_zero.mpr (by positivity)
    have hcast : ((b * 2 ^ s.toNat : ℕ) : ℚ) = (b : ℚ) * 2 ^ s := by
      push_cast
      rw [← zpow_natCast (2 : ℚ) s.toNat, Int.toNat_of_nonneg hs]
    obtain ⟨l1, l2⟩ := rdiv_scaled a (b * 2 ^ s.toNat) s hy
    have hval : ((a : ℚ) / (b * 2 ^ s.toNat : ℕ)) * 2 ^ s = (a : ℚ) / b := by
      rw [hcast]
      have h2s : (0:ℚ) < 2 ^ s := by positivity
      field_simp
      ring
    rw [hval] at l1 l2
    unfold dval
    constructor
    · simp only []
      nlinarith [l1, herr, hq0]
    · simp only []
      nlinarith [l2, herr, hq0]
  · set s : ℤ := ratExp a b - 52 with hsdef
    obtain ⟨l1, l2⟩ := rdiv_scaled (a * 2 ^ (-s).toNat) b s hb
    have hcast : ((a * 2 ^ (-s).toNat : ℕ) : ℚ) = (a : ℚ) * 2 ^ (-s) := by
      push_cast
      rw [← zpow_natCast (2 : ℚ) (-s).toNat, Int.toNat_of_nonneg (by omega : (0:ℤ) ≤ -s)]
    have hval : (((a * 2 ^ (-s).toNat : ℕ) : ℚ) / b) * 2 ^ s = (a : ℚ) / b := by
      rw [hcast]
      have hone : (2:ℚ) ^ (-s) * 2 ^ s = 1 := by
        rw [← zpow_add₀ (two_ne_zero)]
        simp
      field_simp
      nlinarith [hone]
    rw [hval] at l1 l2
    unfold dval
    constructor
    · simp only []
      nlinarith [l1, herr, hq0]
    · simp only []
      nlinarith [l2, herr, hq0]

/-- The binary64 division of positive integers has a full 53-bit mantissa. -/
lemma flDiv_m_lb (a b : ℕ) (ha : 1 ≤ a) (hb : 1 ≤ b) :
    2 ^ 52 ≤ (flDiv a b).1 := by
  obtain ⟨he1, he2⟩ := ratExp_spec a b ha hb
  have hb0 : (0 : ℚ) < (b : ℚ) := by exact_mod_cast hb
  rw [flDiv]
  split_ifs with hs
  · set s : ℤ := ratExp a b - 52 with hsdef
    have hy : 1 ≤ b * 2 ^ s.toNat := Nat.one_le_iff_ne_zero.mpr (by positivity)
    obtain ⟨h1, h2⟩ := rdiv_bounds a (b * 2 ^ s.toNat) hy
    have hcast : ((b * 2 ^ s.toNat : ℕ) : ℚ) = (b : ℚ) * 2 ^ s := by
      push_cast
      rw [← zpow_natCast (2 : ℚ) s.toNat, Int.toNat_of_nonneg hs]
    have he1m : (2 : ℚ) ^ ratExp a b * b ≤ (a : ℚ) := (le_div_iff₀ hb0).mp he1
    have hbig : (2 : ℚ) ^ (52 : ℕ) ≤ (a : ℚ) / ((b * 2 ^ s.toNat : ℕ) : ℚ) := by
      rw [hcast, le_div_iff₀ (by positivity)]
      calc (2 : ℚ) ^ (52 : ℕ) * ((b : ℚ) * 2 ^ s)
          = (2 : ℚ) ^ ((52 : ℕ) : ℤ) * 2 ^ s * b := by
            rw [zpow_natCast]
            ring
        _ = 2 ^ ratExp a b * b := by
            rw [← zpow_add₀ (two_ne_zero), show ((52 : ℕ) : ℤ) + s = ratExp a b by omega]
        _ ≤ (a : ℚ) := he1m
    have hhalf : (2 : ℚ) ^ (52 : ℕ) - 1/2 ≤ (rdiv a (b * 2 ^ s.toNat) : ℚ) := by linarith
    have hfin : ((2 ^ 52 - 1 : ℕ) : ℚ) < (rdiv a (b * 2 ^ s.toNat) : ℚ) := by
      push_cast
      linarith
    have hnat := Nat.cast_lt.mp hfin
    omega
  · set s : ℤ := ratExp a b - 52 with hsdef
    obtain ⟨h1, h2⟩ := rdiv_bounds (a * 2 ^ (-s).toNat) b hb
    have hcast : ((a * 2 ^ (-s).toNat : ℕ) : ℚ) = (a : ℚ) * 2 ^ (-s) := by
      push_cast
      rw [← zpow_natCast (2 : ℚ) (-s).toNat, Int.toNat_of_nonneg (by omega : (0:ℤ) ≤ -s)]
    have he1m : (2 : ℚ) ^ ratExp a b * b ≤ (a : ℚ) := (le_div_iff₀ hb0).mp he1
    have hbig : (2 : ℚ) ^ (52 : ℕ) ≤ ((a * 2 ^ (-s).toNat : ℕ) : ℚ) / b := by
      rw [hcast, le_div_iff₀ hb0]
      calc (2 : ℚ) ^ (52 : ℕ) * b = 2 ^ ratExp a b * b * 2 ^ (-s) := by
            rw [← zpow_natCast (2 : ℚ) 52]
            rw [show (2:ℚ) ^ ratExp a b * (b:ℚ) * 2 ^ (-s)
              = 2 ^ ratExp a b * 2 ^ (-s) * b by ring]
            rw [← zpow_add₀ (two_ne_zero) (ratExp a b) (-s)]
            rw [show ratExp a b + -s = ((52 : ℕ) : ℤ) by omega]
        _ ≤ (a : ℚ) * 2 ^ (-s) := by
            have hp : (0:ℚ) < 2 ^ (-s) := by positivity
            nlinarith [he1m]
    have hhalf : (2 : ℚ) ^ (52 : ℕ) - 1/2 ≤ (rdiv (a * 2 ^ (-s).toNat) b : ℚ) := by linarith
    have hfin : ((2 ^ 52 - 1 : ℕ) : ℚ) < (rdiv (a * 2 ^ (-s).toNat) b : ℚ) := by
      push_cast
      linarith
    have hnat := Nat.cast_lt.mp hfin
    omega

/-- Relative error of rounding a dyadic value (a Python int-times-float
product) to binary64: a factor within `1 ± 2^-53`. -/
lemma flDyadic_bounds (m : ℕ) (t : ℤ) (hm : 1 ≤ m) :
    ((m : ℚ) * 2 ^ t) * (1 - 1/2^53) ≤ dval (flDyadic m t) ∧
    dval (flDyadic m t) ≤ ((m : ℚ) * 2 ^ t) * (1 + 1/2^53) := by
  obtain ⟨hl1, hl2⟩ := nlog2_spec m hm
  have hm0 : (0 : ℚ) < (m : ℚ) := by exact_mod_cast hm
  rw [flDyadic]
  split_ifs with hl
  · have hexact : dval (m * 2 ^ (52 - nlog2 m), t - (52 - (nlog2 m : ℤ)))
        = (m : ℚ) * 2 ^ t := by
      unfold dval
      push_cast
      rw [← zpow_natCast (2 : ℚ) (52 - nlog2 m), mul_assoc, ← zpow_add₀ (two_ne_zero)]
      rw [show ((52 - nlog2 m : ℕ) : ℤ) + (t - (52 - (nlog2 m : ℤ))) = t by omega]
    rw [hexact]
    have hpos : (0:ℚ) ≤ (m : ℚ) * 2 ^ t := by positivity
    constructor <;> nlinarith [hpos]
  · set l := nlog2 m with hldef
    have hy : 1 ≤ 2 ^ (l - 52) := Nat.one_le_two_pow
    obtain ⟨r1, r2⟩ := rdiv_scaled m (2 ^ (l - 52)) (t + ((l : ℤ) - 52)) hy
    have hcast : ((2 ^ (l - 52) : ℕ) : ℚ) = 2 ^ ((l : ℤ) - 52) := by
      push_cast
      rw [← zpow_natCast (2 : ℚ) (l - 52)]
      congr 1
      omega
    have hval : ((m : ℚ) / ((2 ^ (l - 52) : ℕ) : ℚ)) * 2 ^ (t + ((l : ℤ) - 52))
        = (m : ℚ) * 2 ^ t := by
      rw [hcast, zpow_add₀ (two_ne_zero)]
      have hp : (0:ℚ) < (2:ℚ) ^ ((l : ℤ) - 52) := by positivity
      field_simp
      ring
    rw [hval] at r1 r2
    have herr : (2:ℚ) ^ (t + ((l : ℤ) - 52)) / 2 ≤ ((m : ℚ) * 2 ^ t) * (1/2^53) := by
      have hml : (2:ℚ) ^ (l : ℤ) ≤ (m : ℚ) := by
        rw [zpow_natCast]
        exact_mod_cast hl1
      have e1 : (2:ℚ) ^ (t + ((l : ℤ) - 52)) / 2 = 2 ^ (l : ℤ) * 2 ^ t * (1/2^53) := by
        rw [← zpow_natCast (2 : ℚ) 53, ← zpow_add₀ (two_ne_zero) ((l : ℤ)) t]
        rw [show (2:ℚ) ^ ((l : ℤ) + t) * (1 / 2 ^ ((53 : ℕ) : ℤ))
          = 2 ^ ((l : ℤ) + t) / 2 ^ ((53:ℕ) : ℤ) by ring]
        rw [← zpow_sub₀ (two_ne_zero)]
        rw [show ((l : ℤ) + t - ((53 : ℕ) : ℤ)) = (t + ((l : ℤ) - 52)) - 1 by omega]
        rw [zpow_sub₀ (two_ne_zero)]
        norm_num
      rw [e1]
      have hp : (0:ℚ) < (2:ℚ) ^ t := by positivity
      nlinarith [hp]
    unfold dval
    constructor
    · simp only []
      nlinarith [r1, herr]
    · simp only []
      nlinarith [r2, herr]

/-- `maxF` returns one of its arguments. -/
lemma maxF_cases (p q : ℕ × ℤ) : maxF p q = p ∨ maxF p q = q := by
  rw [maxF]
  split_ifs <;> simp

/-- `maxF` computes the maximum of the two float values. -/
lemma maxF_dval (p q : ℕ × ℤ) : dval (maxF p q) = max (dval p) (dval q) := by
  rw [maxF]
  split_ifs with h1 h2 h3
  · have hle : dval p ≤ dval q := by
      unfold dval
      have hcast : ((q.1 * 2 ^ (q.2 - p.2).toNat : ℕ) : ℚ) = (q.1 : ℚ) * 2 ^ (q.2 - p.2) := by
        push_cast
        rw [← zpow_natCast (2 : ℚ) (q.2 - p.2).toNat, Int.toNat_of_nonneg (by omega)]
      have hq : (p.1 : ℚ) ≤ (q.1 : ℚ) * 2 ^ (q.2 - p.2) := by
        rw [← hcast]
        exact_mod_cast h2
      have hp : (0:ℚ) < 2 ^ p.2 := by positivity
      calc (p.1 : ℚ) * 2 ^ p.2 ≤ ((q.1 : ℚ) * 2 ^ (q.2 - p.2)) * 2 ^ p.2 :=
            mul_le_mul_of_nonneg_right hq hp.le
        _ = (q.1 : ℚ) * 2 ^ q.2 := by
            rw [mul_assoc, ← zpow_add₀ (two_ne_zero)]
            congr 2
            omega
    rw [max_eq_right hle]
  · have hle : dval q ≤ dval p := by
      unfold dval
      have hcast : ((q.1 * 2 ^ (q.2 - p.2).toNat : ℕ) : ℚ) = (q.1 : ℚ) * 2 ^ (q.2 - p.2) := by
        push_cast
        rw [← zpow_natCast (2 : ℚ) (q.2 - p.2).toNat, Int.toNat_of_nonneg (by omega)]
      have hq : (q.1 : ℚ) * 2 ^ (q.2 - p.2) ≤ (p.1 : ℚ) := by
        rw [← hcast]
        exact_mod_cast le_of_lt (Nat.lt_of_not_le h2)
      have hp : (0:ℚ) < 2 ^ p.2 := by positivity
      calc (q.1 : ℚ) * 2 ^ q.2 = ((q.1 : ℚ) * 2 ^ (q.2 - p.2)) * 2 ^ p.2 := by
            rw [mul_assoc, ← zpow_add₀ (two_ne_zero)]
            congr 2
            omega
        _ ≤ (p.1 : ℚ) * 2 ^ p.2 := mul_le_mul_of_nonneg_right hq hp.le
    rw [max_eq_left hle]
  · have hle : dval p ≤ dval q := by
      unfold dval
      have hcast : ((p.1 * 2 ^ (p.2 - q.2).toNat : ℕ) : ℚ) = (p.1 : ℚ) * 2 ^ (p.2 - q.2) := by
        push_cast
        rw [← zpow_natCast (2 : ℚ) (p.2 - q.2).toNat, Int.toNat_of_nonneg (by omega)]
      have hq : (p.1 : ℚ) * 2 ^ (p.2 - q.2) ≤ (q.1 : ℚ) := by
        rw [← hcast]
        exact_mod_cast h3
      have hp : (0:ℚ) < 2 ^ q.2 := by positivity
      calc (p.1 : ℚ) * 2 ^ p.2 = ((p.1 : ℚ) * 2 ^ (p.2 - q.2)) * 2 ^ q.2 := by
            rw [mul_assoc, ← zpow_add₀ (two_ne_zero)]
            congr 2
            omega
        _ ≤ (q.1 : ℚ) * 2 ^ q.2 := mul_le_mul_of_nonneg_right hq hp.le
    rw [max_eq_right hle]
  · have hle : dval q ≤ dval p := by
      unfold dval
      have hcast : ((p.1 * 2 ^ (p.2 - q.2).toNat : ℕ) : ℚ) = (p.1 : ℚ) * 2 ^ (p.2 - q.2) := by
        push_cast
        rw [← zpow_natCast (2 : ℚ) (p.2 - q.2).toNat, Int.toNat_of_nonneg (by omega)]
      have hq : (q.1 : ℚ) ≤ (p.1 : ℚ) * 2 ^ (p.2 - q.2) := by
        rw [← hcast]
        exact_mod_cast le_of_lt (Nat.lt_of_not_le h3)
      have hp : (0:ℚ) < 2 ^ q.2 := by positivity
      calc (q.1 : ℚ) * 2 ^ q.2 ≤ ((p.1 : ℚ) * 2 ^ (p.2 - q.2)) * 2 ^ q.2 :=
            mul_le_mul_of_nonneg_right hq hp.le
        _ = (p.1 : ℚ) * 2 ^ p.2 := by
            rw [mul_assoc, ← zpow_add₀ (two_ne_zero)]
            congr 2
            omega
    rw [max_eq_left hle]

/-- `dfloor` is the floor of the float value. -/
lemma dfloor_spec (p : ℕ × ℤ) : (dfloor p : ℤ) = Int.floor (dval p) := by
  rw [dfloor]
  split_ifs with hs
  · have hexact : dval p = ((p.1 * 2 ^ p.2.toNat : ℕ) : ℚ) := by
      unfold dval
      push_cast
      rw [← zpow_natCast (2 : ℚ) p.2.toNat, Int.toNat_of_nonneg hs]
    rw [hexact, Int.floor_natCast]
  · set k := (-p.2).toNat with hkdef
    have hval : dval p = (p.1 : ℚ) / ((2 ^ k : ℕ) : ℚ) := by
      unfold dval
      push_cast
      rw [← zpow_natCast (2 : ℚ) k, hkdef, Int.toNat_of_nonneg (by omega),
        eq_div_iff (by positivity)]
      rw [mul_assoc, ← zpow_add₀ (two_ne_zero)]
      simp
    rw [hval]
    rw [← Int.natCast_floor_eq_floor (by positivity)]
    rw [Nat.floor_div_eq_div]

/-- The computed scale has a full 53-bit mantissa. -/
lemma scaleForF_m_lb (src target : Dim) (hsw : 0 < src.w) (hsh : 0 < src.h)
    (htw : 0 < target.w) (hth : 0 < target.h) :
    2 ^ 52 ≤ (scaleForF src target).1 := by
  rw [scaleForF]
  rcases maxF_cases (flDiv target.w src.w) (flDiv target.h src.h) with h | h <;> rw [h]
  · exact flDiv_m_lb target.w src.w htw hsw
  · exact flDiv_m_lb target.h src.h hth hsh

/-- The computed scale is at least the width ratio (up to one rounding). -/
lemma scaleForF_ge_w (src target : Dim) (hsw : 0 < src.w) (htw : 0 < target.w) :
    ((target.w : ℚ) / src.w) * (1 - 1/2^53) ≤ dval (scaleForF src target) := by
  rw [scaleForF, maxF_dval]
  exact le_trans (flDiv_bounds target.w src.w htw hsw).1 (le_max_left _ _)

/-- The computed scale is at least the height ratio (up to one rounding). -/
lemma scaleForF_ge_h (src target : Dim) (hsh : 0 < src.h) (hth : 0 < target.h) :
    ((target.h : ℚ) / src.h) * (1 - 1/2^53) ≤ dval (scaleForF src target) := by
  rw [scaleForF, maxF_dval]
  exact le_trans (flDiv_bounds target.h src.h hth hsh).1 (le_max_right _ _)

/-- The computed scale is at most the larger exact ratio (up to one
rounding). -/
lemma scaleForF_le (src target : Dim) (hsw : 0 < src.w) (hsh : 0 < src.h)
    (htw : 0 < target.w) (hth : 0 < target.h) :
    dval (scaleForF src target) ≤
      max ((target.w : ℚ) / src.w) ((target.h : ℚ) / src.h) * (1 + 1/2^53) := by
  rw [scaleForF, maxF_dval]
  apply max_le
  · refine le_trans (flDiv_bounds target.w src.w htw hsw).2 ?_
    have h1 : (0:ℚ) ≤ 1 + 1/2^53 := by norm_num
    exact mul_le_mul_of_nonneg_right (le_max_left _ _) h1
  · refine le_trans (flDiv_bounds target.h src.h hth hsh).2 ?_
    have h1 : (0:ℚ) ≤ 1 + 1/2^53 := by norm_num
    exact mul_le_mul_of_nonneg_right (le_max_right _ _) h1

/-- The exact dyadic value of the float product `src_dim * scale`. -/
lemma prod_val (n : ℕ) (src target : Dim) :
    ((n * (scaleForF src target).1 : ℕ) : ℚ) * 2 ^ (scaleForF src target).2
      = (n : ℚ) * dval (scaleForF src target) := by
  unfold dval
  push_cast
  ring

/-- Cover within one pixel: the float-computed resized dimensions fall
short of the target by at most one pixel on each axis (for any target up
to `2^52`, far beyond any real image). -/
lemma resized_dims_cover (src target : Dim) (hsw : 0 < src.w) (hsh : 0 < src.h)
    (htw : 0 < target.w) (hth : 0 < target.h)
    (htw52 : target.w ≤ 2 ^ 52) (hth52 : target.h ≤ 2 ^ 52) :
    target.w ≤ (resized_dims src target).w + 1 ∧
    target.h ≤ (resized_dims src target).h + 1 := by
  have hm : 1 ≤ (scaleForF src target).1 :=
    le_trans (by norm_num) (scaleForF_m_lb src target hsw hsh htw hth)
  constructor
  · have hm2 : 1 ≤ src.w * (scaleForF src target).1 := Nat.one_le_iff_ne_zero.mpr (by positivity)
    have hdy := (flDyadic_bounds (src.w * (scaleForF src target).1)
      (scaleForF src target).2 hm2).1
    rw [prod_val] at hdy
    have hS := scaleForF_ge_w src target hsw htw
    have hsw0 : (0:ℚ) < (src.w : ℚ) := by exact_mod_cast hsw
    have hWsw : (src.w : ℚ) * ((target.w : ℚ) / src.w) = (target.w : ℚ) := by
      field_simp
    have hW52 : ((target.w : ℚ)) ≤ 2 ^ 52 := by exact_mod_cast htw52
    have hW0 : (0:ℚ) < (target.w : ℚ) := by exact_mod_cast htw
    have hval : ((target.w : ℚ)) - 1 ≤
        dval (flDyadic (src.w * (scaleForF src target).1) (scaleForF src target).2) := by
      have step1 : (src.w : ℚ) * dval (scaleForF src target)
          ≥ (target.w : ℚ) * (1 - 1/2^53) := by
        have hstep := mul_le_mul_of_nonneg_left hS hsw0.le
        calc (target.w : ℚ) * (1 - 1/2^53)
            = (src.w : ℚ) * (((target.w : ℚ) / src.w) * (1 - 1/2^53)) := by
              rw [← mul_assoc, hWsw]
          _ ≤ (src.w : ℚ) * dval (scaleForF src target) := hstep
      have step2 : ((target.w : ℚ) * (1 - 1/2^53)) * (1 - 1/2^53) ≥ (target.w : ℚ) - 1 := by
        nlinarith [hW0, hW52]
      have hd0 : (0:ℚ) ≤ (src.w : ℚ) * dval (scaleForF src target) := by
        have hd := dval_nonneg (scaleForF src target)
        positivity
      nlinarith [hdy, step1, step2]
    have hfloor : ((target.w : ℤ)) - 1 ≤ (dfloor (flDyadic (src.w * (scaleForF src target).1)
        (scaleForF src target).2) : ℤ) := by
      rw [dfloor_spec, Int.le_floor]
      push_cast
      exact hval
    have hrw : ((resized_dims src target).w : ℤ)
        = (dfloor (flDyadic (src.w * (scaleForF src target).1)
            (scaleForF src target).2) : ℤ) := rfl
    omega
  · have hm2 : 1 ≤ src.h * (scaleForF src target).1 := Nat.one_le_iff_ne_zero.mpr (by positivity)
    have hdy := (flDyadic_bounds (src.h * (scaleForF src target).1)
      (scaleForF src target).2 hm2).1
    rw [prod_val] at hdy
    have hS := scaleForF_ge_h src target hsh hth
    have hsh0 : (0:ℚ) < (src.h : ℚ) := by exact_mod_cast hsh
    have hHsh : (src.h : ℚ) * ((target.h : ℚ) / src.h) = (target.h : ℚ) := by
      field_simp
    have hH52 : ((target.h : ℚ)) ≤ 2 ^ 52 := by exact_mod_cast hth52
    have hH0 : (0:ℚ) < (target.h : ℚ) := by exact_mod_cast hth
    have hval : ((target.h : ℚ)) - 1 ≤
        dval (flDyadic (src.h * (scaleForF src target).1) (scaleForF src target).2) := by
      have step1 : (src.h : ℚ) * dval (scaleForF src target)
          ≥ (target.h : ℚ) * (1 - 1/2^53) := by
        have hstep := mul_le_mul_of_nonneg_left hS hsh0.le
        calc (target.h : ℚ) * (1 - 1/2^53)
            = (src.h : ℚ) * (((target.h : ℚ) / src.h) * (1 - 1/2^53)) := by
              rw [← mul_assoc, hHsh]
          _ ≤ (src.h : ℚ) * dval (scaleForF src target) := hstep
      have step2 : ((target.h : ℚ) * (1 - 1/2^53)) * (1 - 1/2^53) ≥ (target.h : ℚ) - 1 := by
        nlinarith [hH0, hH52]
      have hd0 : (0:ℚ) ≤ (src.h : ℚ) * dval (scaleForF src target) := by
        have hd := dval_nonneg (scaleForF src target)
        positivity
      nlinarith [hdy, step1, step2]
    have hfloor : ((target.h : ℤ)) - 1 ≤ (dfloor (flDyadic (src.h * (scaleForF src target).1)
        (scaleForF src target).2) : ℤ) := by
      rw [dfloor_spec, Int.le_floor]
      push_cast
      exact hval
    have hrh : ((resized_dims src target).h : ℤ)
        = (dfloor (flDyadic (src.h * (scaleForF src target).1)
            (scaleForF src target).2) : ℤ) := rfl
    omega

/-- Pure arithmetic core of the aspect bound: two quantities within one
binary64 rounding of `sw * S` and `sh * S`, floored to integers `nw`, `nh`,
have cross products within one source pixel. -/
lemma cross_bounds_core (sw sh S A B nw nh : ℚ)
    (hsw0 : 0 < sw) (hsh0 : 0 < sh)
    (hA1 : (sw * S) * (1 - 1/2^53) ≤ A) (hA2 : A ≤ (sw * S) * (1 + 1/2^53))
    (hB1 : (sh * S) * (1 - 1/2^53) ≤ B) (hB2 : B ≤ (sh * S) * (1 + 1/2^53))
    (hnw1 : nw ≤ A) (hnw2 : A < nw + 1)
    (hnh1 : nh ≤ B) (hnh2 : B < nh + 1)
    (hprodS : sw * sh * S ≤ 2 ^ 40 * (1 + 1/2^53)) :
    -sh - 1 < nw * sh - nh * sw ∧ nw * sh - nh * sw < sw + 1 := by
  constructor
  · have p1 : (A - 1) * sh < nw * sh := mul_lt_mul_of_pos_right (by linarith) hsh0
    have p2 : ((sw * S) * (1 - 1/2^53) - 1) * sh ≤ (A - 1) * sh :=
      mul_le_mul_of_nonneg_right (by linarith) hsh0.le
    have p3 : nh * sw ≤ B * sw := mul_le_mul_of_nonneg_right hnh1 hsw0.le
    have p4 : B * sw ≤ ((sh * S) * (1 + 1/2^53)) * sw :=
      mul_le_mul_of_nonneg_right hB2 hsw0.le
    nlinarith [p1, p2, p3, p4, hprodS]
  · have p1 : nw * sh ≤ A * sh := mul_le_mul_of_nonneg_right hnw1 hsh0.le
    have p2 : A * sh ≤ ((sw * S) * (1 + 1/2^53)) * sh :=
      mul_le_mul_of_nonneg_right hA2 hsh0.le
    have p3 : (B - 1) * sw < nh * sw := mul_lt_mul_of_pos_right (by linarith) hsw0
    have p4 : ((sh * S) * (1 - 1/2^53) - 1) * sw ≤ (B - 1) * sw :=
      mul_le_mul_of_nonneg_right (by linarith) hsw0.le
    nlinarith [p1, p2, p3, p4, hprodS]

/-- The scale value times both source dimensions stays below `2^40` (up to
one rounding) when all dimensions are at most `2^20`. -/
lemma scaleForF_prod_bound (src target : Dim) (hsw : 0 < src.w) (hsh : 0 < src.h)
    (htw : 0 < target.w) (hth : 0 < target.h)
    (hb1 : src.w ≤ 2 ^ 20) (hb2 : src.h ≤ 2 ^ 20)
    (hb3 : target.w ≤ 2 ^ 20) (hb4 : target.h ≤ 2 ^ 20) :
    (src.w : ℚ) * src.h * dval (scaleForF src target) ≤ 2 ^ 40 * (1 + 1/2^53) := by
  have hsw0 : (0:ℚ) < (src.w : ℚ) := by exact_mod_cast hsw
  have hsh0 : (0:ℚ) < (src.h : ℚ) := by exact_mod_cast hsh
  have hMprod : (src.w : ℚ) * src.h * max ((target.w : ℚ) / src.w) ((target.h : ℚ) / src.h)
      ≤ 2 ^ 40 := by
    rcases max_cases ((target.w : ℚ) / src.w) ((target.h : ℚ) / src.h) with
      ⟨hmx, _⟩ | ⟨hmx, _⟩ <;> rw [hmx]
    · have heq : (src.w : ℚ) * src.h * ((target.w : ℚ) / src.w) = (target.w : ℚ) * src.h := by
        field_simp
        ring
      rw [heq]
      have c1 : ((target.w : ℚ)) ≤ 2 ^ 20 := by exact_mod_cast hb3
      have c2 : ((src.h : ℚ)) ≤ 2 ^ 20 := by exact_mod_cast hb2
      have c3 : (0:ℚ) ≤ (target.w : ℚ) := by positivity
      nlinarith [c1, c2, c3, hsh0]
    · have heq : (src.w : ℚ) * src.h * ((target.h : ℚ) / src.h) = (target.h : ℚ) * src.w := by
        field_simp
        ring
      rw [heq]
      have c1 : ((target.h : ℚ)) ≤ 2 ^ 20 := by exact_mod_cast hb4
      have c2 : ((src.w : ℚ)) ≤ 2 ^ 20 := by exact_mod_cast hb1
      have c3 : (0:ℚ) ≤ (target.h : ℚ) := by positivity
      nlinarith [c1, c2, c3, hsw0]
  have hSle := scaleForF_le src target hsw hsh htw hth
  have hpos : (0:ℚ) ≤ (src.w : ℚ) * src.h := by positivity
  have step := mul_le_mul_of_nonneg_left hSle hpos
  have hmax0 : (0:ℚ) ≤ max ((target.w : ℚ) / src.w) ((target.h : ℚ) / src.h) := by
    have h0 : (0:ℚ) ≤ (target.w : ℚ) / src.w := by positivity
    exact le_trans h0 (le_max_left _ _)
  nlinarith [step, hMprod, hmax0]

/-- Aspect-ratio preservation within rounding, under float semantics: the
cross products of the resized and source dimensions differ by at most one
source pixel, for any realistic dimensions (at most `2^20`). -/
lemma resized_dims_aspect (src target : Dim) (hsw : 0 < src.w) (hsh : 0 < src.h)
    (htw : 0 < target.w) (hth : 0 < target.h)
    (hb1 : src.w ≤ 2 ^ 20) (hb2 : src.h ≤ 2 ^ 20)
    (hb3 : target.w ≤ 2 ^ 20) (hb4 : target.h ≤ 2 ^ 20) :
    -(src.h : ℤ) ≤ ((resized_dims src target).w : ℤ) * src.h
        - ((resized_dims src target).h : ℤ) * src.w ∧
    ((resized_dims src target).w : ℤ) * src.h
        - ((resized_dims src target).h : ℤ) * src.w ≤ src.w := by
  have hm : 1 ≤ (scaleForF src target).1 :=
    le_trans (by norm_num) (scaleForF_m_lb src target hsw hsh htw hth)
  have hmw : 1 ≤ src.w * (scaleForF src target).1 := Nat.one_le_iff_ne_zero.mpr (by positivity)
  have hmh : 1 ≤ src.h * (scaleForF src target).1 := Nat.one_le_iff_ne_zero.mpr (by positivity)
  have hsw0 : (0:ℚ) < (src.w : ℚ) := by exact_mod_cast hsw
  have hsh0 : (0:ℚ) < (src.h : ℚ) := by exact_mod_cast hsh
  obtain ⟨hA1, hA2⟩ := flDyadic_bounds (src.w * (scaleForF src target).1)
    (scaleForF src target).2 hmw
  obtain ⟨hB1, hB2⟩ := flDyadic_bounds (src.h * (scaleForF src target).1)
    (scaleForF src target).2 hmh
  rw [prod_val] at hA1 hA2 hB1 hB2
  have hnw : (((resized_dims src target).w : ℕ) : ℤ) =
      Int.floor (dval (flDyadic (src.w * (scaleForF src target).1) (scaleForF src target).2)) :=
    dfloor_spec _
  have hnh : (((resized_dims src target).h : ℕ) : ℤ) =
      Int.floor (dval (flDyadic (src.h * (scaleForF src target).1) (scaleForF src target).2)) :=
    dfloor_spec _
  have hnw1 : (((resized_dims src target).w : ℕ) : ℚ) ≤
      dval (flDyadic (src.w * (scaleForF src target).1) (scaleForF src target).2) := by
    have h1 := Int.floor_le (dval (flDyadic (src.w * (scaleForF src target).1)
      (scaleForF src target).2))
    rw [← hnw] at h1
    exact_mod_cast h1
  have hnw2 : dval (flDyadic (src.w * (scaleForF src target).1) (scaleForF src target).2) <
      (((resized_dims src target).w : ℕ) : ℚ) + 1 := by
    have h1 := Int.lt_floor_add_one (dval (flDyadic (src.w * (scaleForF src target).1)
      (scaleForF src target).2))
    rw [← hnw] at h1
    exact_mod_cast h1
  have hnh1 : (((resized_dims src target).h : ℕ) : ℚ) ≤
      dval (flDyadic (src.h * (scaleForF src target).1) (scaleForF src target).2) := by
    have h1 := Int.floor_le (dval (flDyadic (src.h * (scaleForF src target).1)
      (scaleForF src target).2))
    rw [← hnh] at h1
    exact_mod_cast h1
  have hnh2 : dval (flDyadic (src.h * (scaleForF src target).1) (scaleForF src target).2) <
      (((resized_dims src target).h : ℕ) : ℚ) + 1 := by
    have h1 := Int.lt_floor_add_one (dval (flDyadic (src.h * (scaleForF src target).1)
      (scaleForF src target).2))
    rw [← hnh] at h1
    exact_mod_cast h1
  have hprodS := scaleForF_prod_bound src target hsw hsh htw hth hb1 hb2 hb3 hb4
  obtain ⟨hc1, hc2⟩ := cross_bounds_core (src.w : ℚ) (src.h : ℚ) (dval (scaleForF src target))
    (dval (flDyadic (src.w * (scaleForF src target).1) (scaleForF src target).2))
    (dval (flDyadic (src.h * (scaleForF src target).1) (scaleForF src target).2))
    (((resized_dims src target).w : ℕ) : ℚ) (((resized_dims src target).h : ℕ) : ℚ)
    hsw0 hsh0 hA1 hA2 hB1 hB2 hnw1 hnw2 hnh1 hnh2 hprodS
  constructor
  · have hcast : (-(src.h : ℤ) - 1 : ℤ) <
        ((resized_dims src target).w : ℤ) * src.h
          - ((resized_dims src target).h : ℤ) * src.w := by
      have hq : ((-(src.h : ℤ) - 1 : ℤ) : ℚ) <
          ((((resized_dims src target).w : ℤ) * src.h
            - ((resized_dims src target).h : ℤ) * src.w : ℤ) : ℚ) := by
        push_cast
        linarith [hc1]
      exact_mod_cast hq
    omega
  · have hcast : ((resized_dims src target).w : ℤ) * src.h
        - ((resized_dims src target).h : ℤ) * src.w < (src.w : ℤ) + 1 := by
      have hq : ((((resized_dims src target).w : ℤ) * src.h
            - ((resized_dims src target).h : ℤ) * src.w : ℤ) : ℚ) < (((src.w : ℤ) + 1 : ℤ) : ℚ) := by
        push_cast
        linarith [hc2]
      exact_mod_cast hq
    omega

/-- A centering floor offset for an inner size at least the outer size is
nonpositive, and the pasted extent still reaches the outer size. -/
lemma center_offset_bounds (t n : ℤ) (h : t ≤ n) :
    Int.fdiv (t - n) 2 ≤ 0 ∧ t ≤ Int.fdiv (t - n) 2 + n := by
  rw [fdiv_eq_div_of_pos _ 2 (by norm_num)]
  omega

/-- Whenever the resized dimensions do reach the target, every canvas
pixel of `smart_resize` comes from the resized image: the paste region
covers the whole canvas. -/
lemma smart_resize_covers (resample : Resample) (image : Img) (ts : Dim)
    (hcw : ts.w ≤ (resized_dims image.dim ts).w) (hch : ts.h ≤ (resized_dims image.dim ts).h)
    (x y : ℕ) (hx : x < ts.w) (hy : y < ts.h) :
    (smart_resize resample image ts).px x y =
      (resizeImg resample image (resized_dims image.dim ts)).px
        (((x : ℤ) - (paste_offset ts (resized_dims image.dim ts)).1).toNat)
        (((y : ℤ) - (paste_offset ts (resized_dims image.dim ts)).2).toNat) := by
  have hxb := center_offset_bounds (ts.w : ℤ) ((resized_dims image.dim ts).w : ℤ)
    (by exact_mod_cast hcw)
  have hyb := center_offset_bounds (ts.h : ℤ) ((resized_dims image.dim ts).h : ℤ)
    (by exact_mod_cast hch)
  rw [smart_resize_def, pasteAt_px]
  rw [if_pos]
  refine ⟨?_, ?_, ?_, ?_⟩
  · exact le_trans hxb.1 (by exact_mod_cast Nat.zero_le x)
  · calc (x : ℤ) < (ts.w : ℤ) := by exact_mod_cast hx
      _ ≤ _ + _ := hxb.2
  · exact le_trans hyb.1 (by exact_mod_cast Nat.zero_le y)
  · calc (y : ℤ) < (ts.h : ℤ) := by exact_mod_cast hy
      _ ≤ _ + _ := hyb.2

/-- Counterexample to C1 as frozen: for the readable 37x37 source and the
2400x2940 target, the scale is the binary64 height ratio `2940 / 37`
(the height is the covering axis), yet the float product truncates to a
resized height of 2939 < 2940 — so the bottom canvas row receives no
image pixel and stays fully transparent, a transparent bar on the
covering axis, while the row above it is covered. -/
theorem smart_resize_cover_counterexample :
    scaleForF ⟨37, 37⟩ ⟨2400, 2940⟩ = flDiv 2940 37 ∧
    resized_dims ⟨37, 37⟩ ⟨2400, 2940⟩ = ⟨2939, 2939⟩ ∧
    paste_offset ⟨2400, 2940⟩ ⟨2939, 2939⟩ = (-270, 0) ∧
    (smart_resize (fun _ _ px => px) ⟨⟨37, 37⟩, fun _ _ => ⟨1, 1, 1, 1⟩⟩
        ⟨2400, 2940⟩).px 1200 2939 = clearPixel ∧
    (smart_resize (fun _ _ px => px) ⟨⟨37, 37⟩, fun _ _ => ⟨1, 1, 1, 1⟩⟩
        ⟨2400, 2940⟩).px 1200 2938 = ⟨1, 1, 1, 1⟩ := by
  refine ⟨by decide, by decide, by decide, ?_, ?_⟩
  · rw [smart_resize_def, pasteAt_px, if_neg (by decide)]
    rfl
  · rw [smart_resize_def, pasteAt_px, if_pos (by decide)]
    rfl

/-- C1 (amended): for every readable source image and positive target size
`(W, H)`, `smart_resize` returns a canvas of exactly `(W, H)`, built by
pasting the resized image at the centered integer-floored offsets
`((W - new_w) // 2, (H - new_h) // 2)` (which may be negative), where the
resized dimensions come from the binary64 scale
`max(W / src_w, H / src_h)`; the aspect ratio is preserved within
rounding, and the resized image covers the canvas up to at most a
one-pixel shortfall per axis from float rounding — `W ≤ new_w + 1` and
`H ≤ new_h + 1` — with full pixel coverage whenever the resized
dimensions do reach the target; in particular for a 1000x2000 source and
2400x2940 target the scale is the binary64 value of `2.4`
(`5404319552844595 * 2^-51`), the resized image is exactly 2400x4800,
pasted at `(0, -930)`, and its vertical center coincides with the canvas
vertical center. -/
theorem smart_resize_spec :
    (∀ (resample : Resample) (image : Img) (ts : Dim),
      0 < image.dim.w → 0 < image.dim.h → 0 < ts.w → 0 < ts.h →
      ((smart_resize resample image ts).dim = ts ∧
       smart_resize resample image ts =
         pasteAt (blankCanvas ts) (resizeImg resample image (resized_dims image.dim ts))
           (paste_offset ts (resized_dims image.dim ts)) ∧
       paste_offset ts (resized_dims image.dim ts) =
         (Int.fdiv ((ts.w : ℤ) - ((resized_dims image.dim ts).w : ℤ)) 2,
          Int.fdiv ((ts.h : ℤ) - ((resized_dims image.dim ts).h : ℤ)) 2) ∧
       (ts.w ≤ 2 ^ 52 → ts.h ≤ 2 ^ 52 →
         ts.w ≤ (resized_dims image.dim ts).w + 1 ∧
         ts.h ≤ (resized_dims image.dim ts).h + 1) ∧
       (image.dim.w ≤ 2 ^ 20 → image.dim.h ≤ 2 ^ 20 → ts.w ≤ 2 ^ 20 → ts.h ≤ 2 ^ 20 →
         (-(image.dim.h : ℤ) ≤ ((resized_dims image.dim ts).w : ℤ) * image.dim.h
             - ((resized_dims image.dim ts).h : ℤ) * image.dim.w ∧
          ((resized_dims image.dim ts).w : ℤ) * image.dim.h
             - ((resized_dims image.dim ts).h : ℤ) * image.dim.w ≤ image.dim.w)) ∧
       (∀ x y : ℕ, x < ts.w → y < ts.h →
         ts.w ≤ (resized_dims image.dim ts).w → ts.h ≤ (resized_dims image.dim ts).h →
         (smart_resize resample image ts).px x y =
           (resizeImg resample image (resized_dims image.dim ts)).px
             (((x : ℤ) - (paste_offset ts (resized_dims image.dim ts)).1).toNat)
             (((y : ℤ) - (paste_offset ts (resized_dims image.dim ts)).2).toNat)))) ∧
    scaleForF ⟨1000, 2000⟩ ⟨2400, 2940⟩ = (5404319552844595, -51) ∧
    scaleFor ⟨1000, 2000⟩ ⟨2400, 2940⟩ = 5404319552844595 / 2 ^ 51 ∧
    resized_dims ⟨1000, 2000⟩ ⟨2400, 2940⟩ = ⟨2400, 4800⟩ ∧
    paste_offset ⟨2400, 2940⟩ ⟨2400, 4800⟩ = (0, -930) ∧
    (paste_offset ⟨2400, 2940⟩ ⟨2400, 4800⟩).2 * 2 + 4800 = 2940 := by
  refine ⟨?_, by decide, ?_, by decide, by decide, by decide⟩
  · intro resample image ts hw hh htw hth
    exact ⟨rfl, rfl, rfl,
      fun h52w h52h => resized_dims_cover image.dim ts hw hh htw hth h52w h52h,
      fun hb1 hb2 hb3 hb4 => resized_dims_aspect image.dim ts hw hh htw hth hb1 hb2 hb3 hb4,
      fun x y hx hy hcw hch => smart_resize_covers resample image ts hcw hch x y hx hy⟩
  · rw [scaleFor, show scaleForF ⟨1000, 2000⟩ ⟨2400, 2940⟩ = (5404319552844595, -51) from by decide]
    unfold dval
    rw [show ((5404319552844595, -51) : ℕ × ℤ).1 = (5404319552844595 : ℕ) from rfl,
      show ((5404319552844595, -51) : ℕ × ℤ).2 = (-51 : ℤ) from rfl]
    rw [zpow_neg, show ((51 : ℤ)) = ((51 : ℕ) : ℤ) from by norm_num, zpow_natCast]
    rw [div_eq_mul_inv]
    norm_num

/-- Witness for C1 at the spec scenario: a 1000x2000 source with the fixed
2400x2940 target gives a canvas of exactly the target size whose resized
dimensions reach the target within the one-pixel bound. -/
theorem smart_resize_spec_witness :
    (smart_resize (fun _ _ px => px) ⟨⟨1000, 2000⟩, fun _ _ => clearPixel⟩
        ⟨2400, 2940⟩).dim = ⟨2400, 2940⟩ ∧
    ((2400 : ℕ) ≤ (resized_dims ⟨1000, 2000⟩ ⟨2400, 2940⟩).w + 1 ∧
     (2940 : ℕ) ≤ (resized_dims ⟨1000, 2000⟩ ⟨2400, 2940⟩).h + 1) := by
  have h := smart_resize_spec.1 (fun _ _ px => px)
    ⟨⟨1000, 2000⟩, fun _ _ => clearPixel⟩ ⟨2400, 2940⟩
    (by norm_num) (by norm_num) (by norm_num) (by norm_num)
  exact ⟨h.1, h.2.2.2.1 (by norm_num) (by norm_num)⟩

/-- C6: for every canvas width and bounding box, `center_position` returns
exactly the integer floor of `(W - (right - left)) / 2` with no clamping:
the result is negative when the bbox is wider than the canvas, and for a
zero-width bbox it is `⌊W / 2⌋` with no division error (the function is
total). -/
theorem center_position_spec (w : ℤ) (bbox : BBox) :
    center_position w bbox = Int.fdiv (w - (bbox.right - bbox.left)) 2 ∧
    (w < bbox.right - bbox.left → center_position w bbox < 0) ∧
    (bbox.right = bbox.left → center_position w bbox = Int.fdiv w 2) := by
  refine ⟨rfl, fun hlt => ?_, fun heq => ?_⟩
  · unfold center_position
    rw [fdiv_eq_div_of_pos _ 2 (by norm_num)]
    omega
  · unfold center_position
    rw [heq, sub_self, sub_zero]

/-- Witness for C6 at concrete inputs: a bbox wider than the canvas gives a
negative position, and a zero-width bbox centers at `⌊W / 2⌋`. -/
theorem center_position_spec_witness :
    center_position 10 ⟨0, 0, 14, 5⟩ < 0 ∧ center_position 7 ⟨3, 0, 3, 5⟩ = 3 := by
  constructor
  · exact (center_position_spec 10 ⟨0, 0, 14, 5⟩).2.1 (by norm_num)
  · have h := (center_position_spec 7 ⟨3, 0, 3, 5⟩).2.2 rfl
    rw [h]
    decide

/-- C8: `add_bboxes` is the componentwise min of lefts and tops and max of
rights and bottoms, and is commutative, associative and idempotent. -/
theorem add_bboxes_spec :
    (∀ a b : BBox, add_bboxes a b =
      ⟨min a.left b.left, min a.top b.top, max a.right b.right, max a.bottom b.bottom⟩) ∧
    (∀ a b : BBox, add_bboxes a b = add_bboxes b a) ∧
    (∀ a b c : BBox, add_bboxes (add_bboxes a b) c = add_bboxes a (add_bboxes b c)) ∧
    (∀ b : BBox, add_bboxes b b = b) := by
  refine ⟨fun a b => rfl, fun a b => ?_, fun a b c => ?_, fun b => ?_⟩
  · simp [add_bboxes, min_comm, max_comm]
  · simp [add_bboxes, min_assoc, max_assoc]
  · cases b
    simp [add_bboxes]

/-- C3: whenever the fetched result has a non-empty `backdrops` list,
`generate_movie_posters` runs the backdrop-labeled pass with the `posters`
list as its images argument (main.py line 106), so every path downloaded by
any pass comes from the posters list and the backdrop entries are never
downloaded or rendered. -/
theorem backdrop_pass_uses_posters (mi : MovieImages) (hb : mi.backdrops ≠ []) :
    ((generate_movie_posters (some mi)).filter (fun p => p.label = "backdrop")
      = [⟨"backdrop", mi.posters⟩]) ∧
    (∀ path ∈ downloaded_paths (generate_movie_posters (some mi)),
      path ∈ mi.posters.map TmdbImage.file_path) := by
  by_cases hp : mi.posters = [] <;>
    simp_all [generate_movie_posters, downloaded_paths, List.filter_append]

/-- The size search never returns more than the starting size. -/
lemma get_adaptive_font_size_le (width : ℕ → ℤ) (mw : ℤ) :
    ∀ s, get_adaptive_font_size width mw s ≤ s := by
  intro s
  induction s using Nat.strong_induction_on with
  | _ s ih =>
    rw [get_adaptive_font_size]
    split
    · next h => exact le_trans (ih (s - 1) (by omega)) (by omega)
    · exact le_refl s

/-- Starting at or above the floor size 10, the search never goes below 10. -/
lemma get_adaptive_font_size_ge_ten (width : ℕ → ℤ) (mw : ℤ) :
    ∀ s, 10 ≤ s → 10 ≤ get_adaptive_font_size width mw s := by
  intro s
  induction s using Nat.strong_induction_on with
  | _ s ih =>
    intro hs
    rw [get_adaptive_font_size]
    split
    · next h => exact ih (s - 1) (by omega) (by omega)
    · exact hs

/-- If the text already fits at the starting size, the search stops there. -/
lemma get_adaptive_font_size_of_fits (width : ℕ → ℤ) (mw : ℤ) (s : ℕ)
    (hfit : width s ≤ mw) : get_adaptive_font_size width mw s = s := by
  rw [get_adaptive_font_size]
  split
  · next h => omega
  · rfl

/-- If the width function is monotone and even size 10 does not fit, the
search descends all the way to the floor size 10. -/
lemma get_adaptive_font_size_floor (width : ℕ → ℤ) (mw : ℤ)
    (hmono : ∀ s t, s ≤ t → width s ≤ width t) (hbig : mw < width 10) :
    ∀ s, 10 ≤ s → get_adaptive_font_size width mw s = 10 := by
  intro s
  induction s using Nat.strong_induction_on with
  | _ s ih =>
    intro hs
    rw [get_adaptive_font_size]
    rcases Nat.lt_or_ge 10 s with hgt | hge
    · rw [if_pos ⟨lt_of_lt_of_le hbig (hmono 10 s hs), hgt⟩]
      exact ih (s - 1) (by omega) (by omega)
    · rw [if_neg (by omega)]
      omega

/-- C4: for every measured-width function, width budget and starting size
at least the floor (the source default is 244), the size search of
`get_adaptive_font` decrements by 1 while the measured width exceeds the
budget, always terminates (the embedding is a total function, so the
Python loop never raises), never goes below 10 or above the starting size,
returns exactly the starting size when the text already fits there, and —
for a monotone width measurement — returns 10 when the budget is below the
width at size 10. -/
theorem get_adaptive_font_spec (width : ℕ → ℤ) (max_width : ℤ) (initial_font_size : ℕ)
    (hinit : 10 ≤ initial_font_size)
    (hmono : ∀ s t, s ≤ t → width s ≤ width t) :
    10 ≤ get_adaptive_font_size width max_width initial_font_size ∧
    get_adaptive_font_size width max_width initial_font_size ≤ initial_font_size ∧
    (width initial_font_size ≤ max_width →
      get_adaptive_font_size width max_width initial_font_size = initial_font_size) ∧
    (max_width < width 10 →
      get_adaptive_font_size width max_width initial_font_size = 10) :=
  ⟨get_adaptive_font_size_ge_ten width max_width initial_font_size hinit,
   get_adaptive_font_size_le width max_width initial_font_size,
   fun hfit => get_adaptive_font_size_of_fits width max_width initial_font_size hfit,
   fun hbig => get_adaptive_font_size_floor width max_width hmono hbig initial_font_size hinit⟩

/-- Witness for C4 at a concrete monotone width function and the source's
default starting size 244. -/
theorem get_adaptive_font_spec_witness :
    10 ≤ get_adaptive_font_size (fun s => (s : ℤ)) 300 244 ∧
    get_adaptive_font_size (fun s => (s : ℤ)) 300 244 ≤ 244 ∧
    ((244 : ℤ) ≤ 300 → get_adaptive_font_size (fun s => (s : ℤ)) 300 244 = 244) ∧
    ((300 : ℤ) < 10 → get_adaptive_font_size (fun s => (s : ℤ)) 300 244 = 10) :=
  get_adaptive_font_spec (fun s => (s : ℤ)) 300 244 (by norm_num)
    (fun s t hst => by simpa using hst)

/-- C5: with text and font fixed (that is, with the same measured-width
function and starting size), the size returned by the adaptive search is
monotonically non-decreasing in the width budget. -/
theorem get_adaptive_font_size_monotone (width : ℕ → ℤ) (w1 w2 : ℤ) (h12 : w1 ≤ w2)
    (s : ℕ) : get_adaptive_font_size width w1 s ≤ get_adaptive_font_size width w2 s := by
  induction s using Nat.strong_induction_on with
  | _ s ih =>
    conv_lhs => rw [get_adaptive_font_size]
    conv_rhs => rw [get_adaptive_font_size]
    split_ifs with h1 h2 h3
    · exact ih (s - 1) (by omega)
    · exact le_trans (get_adaptive_font_size_le width w1 (s - 1)) (by omega)
    · omega
    · exact le_refl s

/-- Witness for C5: a smaller budget yields a size no larger than a bigger
budget does, at a concrete width function and the default start 244. -/
theorem get_adaptive_font_size_monotone_witness :
    get_adaptive_font_size (fun s => (s : ℤ)) 100 244 ≤
      get_adaptive_font_size (fun s => (s : ℤ)) 200 244 :=
  get_adaptive_font_size_monotone (fun s => (s : ℤ)) 100 200 (by norm_num) 244

/-- Witness for C3: a result with one poster and one backdrop runs the
backdrop pass over the posters list. -/
theorem backdrop_pass_uses_posters_witness :
    ((generate_movie_posters (some ⟨[⟨"/p1.jpg"⟩], [⟨"/b1.jpg"⟩]⟩)).filter
        (fun p => p.label = "backdrop") = [⟨"backdrop", [⟨"/p1.jpg"⟩]⟩]) ∧
    (∀ path ∈ downloaded_paths (generate_movie_posters (some ⟨[⟨"/p1.jpg"⟩], [⟨"/b1.jpg"⟩]⟩)),
      path ∈ ([⟨"/p1.jpg"⟩] : List TmdbImage).map TmdbImage.file_path) :=
  backdrop_pass_uses_posters ⟨[⟨"/p1.jpg"⟩], [⟨"/b1.jpg"⟩]⟩ (by simp)

/-- C2: in `create_image_poster` the blur offset is
`offset_y = floor(base_height / 1.2) - blur_height` (value `-490` at the
fixed 2940-pixel height), the blur is pasted onto a blank full-size
transparent canvas at `(0, -offset_y)` clipped by canvas bounds — placing
the blur top edge at vertical coordinate 490, rows above it transparent —
and that canvas is alpha-composited over the base with the standard "over"
blend. -/
theorem blur_layer_spec :
    blur_offset_y 2940 2940 = -490 ∧
    (∀ (poster blur : Img) (x y : ℕ),
      (composite_stage poster blur).px x y =
        overPixel (poster.px x y) ((blur_with_offset_canvas poster.dim blur).px x y)) ∧
    (∀ blur : Img, blur.dim = ⟨2400, 2940⟩ → ∀ x y : ℕ,
      (y < 490 → (blur_with_offset_canvas target_size blur).px x y = clearPixel) ∧
      (x < 2400 → (blur_with_offset_canvas target_size blur).px x 490 = blur.px x 0) ∧
      (490 ≤ y → x < 2400 → y < 3430 →
        (blur_with_offset_canvas target_size blur).px x y = blur.px x (y - 490))) := by
  refine ⟨?_, fun poster blur x y => rfl, ?_⟩
  · rw [blur_offset_y]
    norm_num
  · intro blur hdim x y
    have hw : blur.dim.w = 2400 := by rw [hdim]
    have hh : blur.dim.h = 2940 := by rw [hdim]
    have hcan : blur_with_offset_canvas target_size blur
        = pasteAt (blankCanvas target_size) blur (0, 490) := by
      rw [blur_with_offset_canvas, hh, blur_offset_y]
      norm_num [target_size]
    refine ⟨fun hy => ?_, fun hx => ?_, fun hy1 hx hy2 => ?_⟩
    · rw [hcan, pasteAt_px, hw, hh, if_neg (by omega)]
      rfl
    · rw [hcan, pasteAt_px, hw, hh, if_pos (by omega)]
      congr 1
    · rw [hcan, pasteAt_px, hw, hh, if_pos (by omega)]
      congr 1
      omega

/-- Witness for C2: a concrete 2400x2940 blur image is transparent above
row 490 and has its top edge mapped to row 490 on the offset canvas. -/
theorem blur_layer_spec_witness :
    (blur_with_offset_canvas target_size ⟨⟨2400, 2940⟩, fun _ _ => ⟨1, 0, 0, 1⟩⟩).px 5 100
        = clearPixel ∧
    (blur_with_offset_canvas target_size ⟨⟨2400, 2940⟩, fun _ _ => ⟨1, 0, 0, 1⟩⟩).px 5 490
        = (⟨⟨2400, 2940⟩, fun _ _ => ⟨1, 0, 0, 1⟩⟩ : Img).px 5 0 := by
  have h := blur_layer_spec.2.2 ⟨⟨2400, 2940⟩, fun _ _ => ⟨1, 0, 0, 1⟩⟩ rfl 5 100
  have h490 := blur_layer_spec.2.2 ⟨⟨2400, 2940⟩, fun _ _ => ⟨1, 0, 0, 1⟩⟩ rfl 5 490
  exact ⟨h.1 (by norm_num), h490.2.1 (by norm_num)⟩

/-- C7: the brand mark unions the two part bboxes and centers that union
horizontally; the first part sits at vertical position
`canvas_height - 450 + part1_height // 4`, the second at the fixed vertical
position `canvas_height - 450` with horizontal start equal to the first
part's right edge. -/
theorem brand_mark_layout_spec (w h : ℤ) (cine_bbox fil_bbox : BBox) :
    (cine_position w h cine_bbox fil_bbox).1
        = center_position w (add_bboxes cine_bbox fil_bbox) ∧
    (cine_position w h cine_bbox fil_bbox).2
        = h - 450 + Int.fdiv (cine_bbox.bottom - cine_bbox.top) 4 ∧
    (fil_position w h cine_bbox fil_bbox).2 = h - 450 ∧
    (fil_position w h cine_bbox fil_bbox).1
        = (cine_position w h cine_bbox fil_bbox).1 + cine_bbox.right :=
  ⟨rfl, rfl, rfl, rfl⟩

/-- C9: the composition pipeline is deterministic — two runs over
environments that agree on the input files, the font assets and the
rendering backend produce identical results (effects, serialized bytes and
final image), whatever the clock and random seed, because the pipeline
never reads a clock or a randomness source. -/
theorem create_image_poster_deterministic (e1 e2 : Env)
    (title_text poster_image_path output_image_path blur_image_path : String)
    (hfiles : e1.files = e2.files) (hfonts : e1.fontOK = e2.fontOK)
    (hbackend : e1.backend = e2.backend) :
    create_image_poster e1 title_text poster_image_path output_image_path blur_image_path =
      create_image_poster e2 title_text poster_image_path output_image_path blur_image_path := by
  obtain ⟨f1, o1, b1, c1, r1⟩ := e1
  obtain ⟨f2, o2, b2, c2, r2⟩ := e2
  cases hfiles
  cases hfonts
  cases hbackend
  rfl

/-- A degenerate but well-typed backend for concrete witnesses. -/
def demoBackend : Backend :=
  ⟨fun _ _ px => px, fun _ _ _ => ⟨0, 0, 0, 0⟩, fun _ _ _ _ px => px, fun _ => []⟩

/-- A concrete 1x1 opaque white image for witnesses. -/
def demoImg : Img := ⟨⟨1, 1⟩, fun _ _ => ⟨1, 1, 1, 1⟩⟩

/-- A demo environment whose clock and random seed vary freely. -/
def demoEnv (clock seed : ℕ) : Env :=
  ⟨fun _ => some demoImg, fun _ => true, demoBackend, clock, seed⟩

/-- Witness for C9: two runs at different clocks and random seeds give the
same output. -/
theorem create_image_poster_deterministic_witness :
    create_image_poster (demoEnv 0 17) "T" "p.jpg" "out.png" "Blur.png" =
      create_image_poster (demoEnv 999 5) "T" "p.jpg" "out.png" "Blur.png" :=
  create_image_poster_deterministic (demoEnv 0 17) (demoEnv 999 5) "T" "p.jpg" "out.png"
    "Blur.png" rfl rfl rfl

/-- The write effects contained in a trace. -/
def writeEffects (tr : List Effect) : List Effect :=
  tr.filter fun e => match e with
    | .writeFile _ _ => true
    | _ => false

/-- C10: a missing or unreadable source image, blur image, or font is an
error raised before the output file is written: on any error the trace
contains no write, on success the single write of the output path is the
final step, and the trace is always a prefix of the one-attempt-per-step
sequence (no retries). -/
theorem create_image_poster_error_spec (env : Env)
    (title_text poster_image_path output_image_path blur_image_path : String) :
    (∀ err,
      (create_image_poster env title_text poster_image_path output_image_path blur_image_path).2
          = Except.error err →
      writeEffects
        (create_image_poster env title_text poster_image_path output_image_path blur_image_path).1
          = []) ∧
    (∀ img,
      (create_image_poster env title_text poster_image_path output_image_path blur_image_path).2
          = Except.ok img →
      (create_image_poster env title_text poster_image_path output_image_path blur_image_path).1
        = [Effect.openImage poster_image_path, Effect.openImage blur_image_path,
           Effect.loadFont gloockPath, Effect.loadFont charmonmanPath,
           Effect.writeFile output_image_path (env.backend.encodePNG img)]) ∧
    ((create_image_poster env title_text poster_image_path output_image_path blur_image_path).1
        = [Effect.openImage poster_image_path] ∨
     (create_image_poster env title_text poster_image_path output_image_path blur_image_path).1
        = [Effect.openImage poster_image_path, Effect.openImage blur_image_path] ∨
     (create_image_poster env title_text poster_image_path output_image_path blur_image_path).1
        = [Effect.openImage poster_image_path, Effect.openImage blur_image_path,
           Effect.loadFont gloockPath] ∨
     (create_image_poster env title_text poster_image_path output_image_path blur_image_path).1
        = [Effect.openImage poster_image_path, Effect.openImage blur_image_path,
           Effect.loadFont gloockPath, Effect.loadFont charmonmanPath] ∨
     (∃ bytes,
      (create_image_poster env title_text poster_image_path output_image_path blur_image_path).1
        = [Effect.openImage poster_image_path, Effect.openImage blur_image_path,
           Effect.loadFont gloockPath, Effect.loadFont charmonmanPath,
           Effect.writeFile output_image_path bytes])) := by
  rcases hfp : env.files poster_image_path with _ | posterSrc
  · simp only [create_image_poster, hfp]
    exact ⟨fun err _ => rfl, fun img h => Except.noConfusion h, Or.inl trivial⟩
  · rcases hfb : env.files blur_image_path with _ | blurSrc
    · simp only [create_image_poster, hfp, hfb]
      exact ⟨fun err _ => rfl, fun img h => Except.noConfusion h, Or.inr (Or.inl trivial)⟩
    · rcases hg : env.fontOK gloockPath with _ | _
      · simp only [create_image_poster, hfp, hfb, hg]
        exact ⟨fun err _ => rfl, fun img h => Except.noConfusion h,
          Or.inr (Or.inr (Or.inl trivial))⟩
      · rcases hc : env.fontOK charmonmanPath with _ | _
        · simp only [create_image_poster, hfp, hfb, hg, hc]
          exact ⟨fun err _ => rfl, fun img h => Except.noConfusion h,
            Or.inr (Or.inr (Or.inr (Or.inl trivial)))⟩
        · simp only [create_image_poster, hfp, hfb, hg, hc]
          refine ⟨fun err h => Except.noConfusion h, fun img h => ?_, ?_⟩
          · injection h with h
            rw [h]
          · exact Or.inr (Or.inr (Or.inr (Or.inr ⟨_, rfl⟩)))

/-- An environment with no readable files, for the error-path witness. -/
def emptyEnv : Env := ⟨fun _ => none, fun _ => true, demoBackend, 0, 0⟩

/-- Witness for C10: with an unreadable source image the run errors and its
trace contains no write. -/
theorem create_image_poster_error_spec_witness :
    writeEffects (create_image_poster emptyEnv "T" "p.jpg" "out.png" "Blur.png").1 = [] :=
  (create_image_poster_error_spec emptyEnv "T" "p.jpg" "out.png" "Blur.png").1
    "cannot identify image file" rfl

end Cinefil
